import Mathlib

/-!
# Verification of the `a_sync` concurrency-primitive layer

A shallow embedding, in Lean 4, of the concurrency primitives of the
`a_sync` repository:

* the bulk-fetch helpers of `a_sync/primitives/queue.py` (`Queue.get_multi`,
  `Queue.get_multi_nowait`, `_validate_args`);
* the worker loop of `ProcessingQueue._worker_coro` /
  `SmartProcessingQueue._worker_coro` (same error-delivery logic);
* `SmartFuture` and its waiter-count heap ordering;
* the priority semaphore of `a_sync/primitives/locks/prio_semaphore.py`
  (`_AbstractPrioritySemaphore` together with its per-priority context
  managers);
* a model of `TaskMapping` (`a_sync/task.py` is not part of the source
  snapshot; that component is modelled from the spec).

Python machine state (futures, deques, dicts, the `heapq` list) is made
explicit: futures are identified by natural-number ids whose status lives in
an explicit status map, dicts become insertion-ordered association lists, and
the cooperative single-threaded scheduler of `asyncio` is reflected by
modelling every code section between two `await` points as one atomic
transition function on the state.
-/

namespace ASync

/-! ## Queue bulk-fetch helpers (`a_sync/primitives/queue.py`)

The underlying `asyncio.Queue` is a FIFO buffer; we model its contents as a
`List`, head = front.  `get_nowait` pops the head or raises
`asyncio.QueueEmpty`; `put_nowait` appends at the back. -/

/-- Errors raised by the queue helpers.  `queueEmpty` is `asyncio.QueueEmpty`;
`valueError` is the `ValueError` raised by `_validate_args`.  (The
`TypeError` branches of `_validate_args` guard Python dynamic typing and are
unrepresentable here because `i` and `can_return_less` are typed.) -/
inductive QueueError where
  | queueEmpty
  | valueError
  deriving DecidableEq, Repr

/-- `asyncio.Queue.get_nowait`: pop the front item or raise `QueueEmpty`. -/
def get_nowait {T : Type} : List T → Except QueueError (T × List T)
  | [] => .error .queueEmpty
  | x :: q => .ok (x, q)

/-- `asyncio.Queue.put_nowait`: append an item at the back of the queue. -/
def put_nowait {T : Type} (q : List T) (x : T) : List T := q ++ [x]

/-- `_validate_args` (queue.py lines 158-164): raises `ValueError` unless
`i` is an integer greater than 1. -/
def validate_args (i : Int) (_can_return_less : Bool) : Except QueueError Unit :=
  if i ≤ 1 then .error .valueError else .ok ()

/-- The `for _ in range(i)` loop of `Queue.get_multi_nowait` (queue.py lines
62-73).  `acc` is the Python local `items`.  On `QueueEmpty`: if some items
were collected and `can_return_less` is set they are returned; otherwise each
collected item is `put_nowait` back (the queue is empty at that point, so the
rolled-back queue is exactly `acc`) and `QueueEmpty` is raised.
Returns (result, queue after the call). -/
def get_multi_nowait_loop {T : Type} :
    List T → List T → Nat → Bool → Except QueueError (List T) × List T
  | q, acc, 0, _ => (.ok acc, q)
  | q, acc, n + 1, can_return_less =>
    match get_nowait q with
    | .ok (x, q') => get_multi_nowait_loop q' (acc ++ [x]) n can_return_less
    | .error _ =>
      if !acc.isEmpty && can_return_less then (.ok acc, q)
      else (.error .queueEmpty, acc.foldl put_nowait q)

/-- `Queue.get_multi_nowait` (queue.py lines 56-73): validate the arguments,
then take up to `i` items. Returns (result, queue after the call). -/
def get_multi_nowait {T : Type} (q : List T) (i : Int) (can_return_less : Bool) :
    Except QueueError (List T) × List T :=
  match validate_args i can_return_less with
  | .error e => (.error e, q)
  | .ok _ => get_multi_nowait_loop q [] i.toNat can_return_less

/-- One `await self.get()` step of the queue: take the front of the queue if
non-empty, otherwise suspend and take the next externally arriving item;
`none` means the coroutine blocks forever (no further arrival). -/
def queue_get {T : Type} : List T → List T → Option (T × List T × List T)
  | x :: q, arr => some (x, q, arr)
  | [], a :: arr => some (a, [], arr)
  | [], [] => none

/-- The `while len(items) < i and not can_return_less` loop of
`Queue.get_multi` (queue.py lines 49-55).  Each iteration calls
`self.get_multi_nowait(i - len(items), can_return_less=True)` — including its
argument validation — and on `asyncio.QueueEmpty` replaces the whole `items`
list by `[await self.get()]`.  `arr` is the stream of items arriving while
the call is suspended in `get`; the result is `none` when the coroutine
blocks forever, otherwise the (result, final queue, unconsumed arrivals). -/
def get_multi_loop {T : Type} :
    Nat → List T → List T → List T → Int → Bool →
    Option (Except QueueError (List T) × List T × List T)
  | 0, _, _, _, _, _ => none
  | fuel + 1, q, arr, items, i, can_return_less =>
    if (items.length : Int) < i ∧ can_return_less = false then
      match get_multi_nowait q (i - items.length) true with
      | (.ok got, q') => get_multi_loop fuel q' arr (items ++ got) i can_return_less
      | (.error .queueEmpty, q') =>
        -- `except asyncio.QueueEmpty: items = [await self.get()]`
        match queue_get q' arr with
        | some (x, q'', arr') => get_multi_loop fuel q'' arr' [x] i can_return_less
        | none => none
      | (.error .valueError, q') => some (.error .valueError, q', arr)
    else some (.ok items, q, arr)

/-- `Queue.get_multi` (queue.py lines 47-55).  `arr` is the stream of items
put into the queue while the call is suspended. -/
def get_multi {T : Type} (q arr : List T) (i : Int) (can_return_less : Bool) :
    Option (Except QueueError (List T) × List T × List T) :=
  match validate_args i can_return_less with
  | .error e => some (.error e, q, arr)
  | .ok _ =>
    get_multi_loop (q.length + arr.length + i.toNat + 1) q arr [] i can_return_less

/-! ## `ProcessingQueue._worker_coro` (queue.py lines 139-155)

The `return_data=True` branch of the worker loop; `SmartProcessingQueue
._worker_coro` (queue.py lines 253-271) has the identical error-delivery
logic.  A queue item's bound call either returns a value or raises; its
result future is fresh and pending when the worker dequeues the item. -/

/-- The behaviour of `await self.func(*args, **kwargs)` on one item. -/
inductive Outcome (V E : Type) where
  | ok (v : V)
  | raised (e : E)
  deriving DecidableEq, Repr

/-- A Python object stored in a future by `Future.set_result`: either a
normal value or an exception object stored *as a value*. -/
inductive FutVal (V E : Type) where
  | val (v : V)
  | exn (e : E)
  deriving DecidableEq, Repr

/-- The state of an `asyncio.Future`: unresolved, resolved via `set_result`,
or resolved via `set_exception`. -/
inductive FutState (V E : Type) where
  | pending
  | result (x : FutVal V E)
  | failed (e : E)
  deriving DecidableEq, Repr

/-- `await fut` on a resolved future: `set_result` values are returned
normally, `set_exception` errors are re-raised; `none` when still pending. -/
def await_fut {V E : Type} : FutState V E → Option (Except E (FutVal V E))
  | .pending => none
  | .result x => some (.ok x)
  | .failed e => some (.error e)

/-- The `while True` body of `ProcessingQueue._worker_coro` (return-data
branch), iterated over the queue contents: on success `fut.set_result` stores
the returned value; on a raised exception the `except Exception` handler runs
`fut.set_result(e)` — the exception object is stored as the future's *result*
(the inner `UnboundLocalError` branch cannot trigger here because `fut` is
bound whenever `self.func` ran) — then `task_done` and the loop continues
with the next item. -/
def worker_loop {V E : Type} : List (Outcome V E) → List (FutState V E)
  | [] => []
  | .ok v :: rest => .result (.val v) :: worker_loop rest
  | .raised e :: rest => .result (.exn e) :: worker_loop rest

/-- The resolved state the worker gives one item's future: the returned
value, or — via the `except` handler's `fut.set_result(e)` — the raised
exception object stored as the result. -/
def worker_result {V E : Type} : Outcome V E → FutState V E
  | .ok v => .result (.val v)
  | .raised e => .result (.exn e)

/-! ## `SmartFuture` (queue.py lines 167-190)

`SmartFuture` declares `_waiters: Set["asyncio.Task[T]"] = set()` at class
level (its own comment: "classvar holds default value for instances") and
never assigns an instance attribute named `_waiters`; `__await__` runs
`self._waiters.add(...)` / `self._waiters.remove(...)`, which *mutates the
object returned by attribute lookup in place*.  We model Python attribute
lookup explicitly: each future id has an optional instance-dict entry, and
lookup falls back to the class attribute when the entry is absent.  Waiting
tasks are identified by ids; the Python `set` is modelled as a
duplicate-free list. -/

structure SmartFutureSys where
  /-- The class-level `SmartFuture._waiters` set. -/
  class_waiters : List Nat
  /-- Per-instance `__dict__["_waiters"]` entries (`none` = absent). -/
  inst_waiters : Nat → Option (List Nat)

/-- Python attribute lookup for `self._waiters`: the instance dict entry if
present, else the class attribute. -/
def get_waiters (sys : SmartFutureSys) (f : Nat) : List Nat :=
  (sys.inst_waiters f).getD sys.class_waiters

/-- `SmartFuture.num_waiters`: `len(self._waiters)`. -/
def num_waiters (sys : SmartFutureSys) (f : Nat) : Nat :=
  (get_waiters sys f).length

/-- `SmartFuture.__lt__` (queue.py lines 185-187): "a future with more
waiters will be 'less than' a future with less waiters". -/
def smart_fut_lt (sys : SmartFutureSys) (f g : Nat) : Bool :=
  num_waiters sys f > num_waiters sys g

/-- `set.add`: insert, no effect if already present. -/
def pyset_add (s : List Nat) (t : Nat) : List Nat :=
  if t ∈ s then s else s ++ [t]

/-- Mutate in place the set object that attribute lookup on future `f` finds:
the instance entry if present, otherwise the shared class-level set. -/
def mutate_waiters (sys : SmartFutureSys) (f : Nat) (upd : List Nat → List Nat) :
    SmartFutureSys :=
  match sys.inst_waiters f with
  | some s => { sys with inst_waiters := fun g => if g = f then some (upd s) else sys.inst_waiters g }
  | none => { sys with class_waiters := upd sys.class_waiters }

/-- `SmartFuture.__await__`, suspend side: `self._waiters.add(current_task)`. -/
def await_enter (sys : SmartFutureSys) (f t : Nat) : SmartFutureSys :=
  mutate_waiters sys f (fun s => pyset_add s t)

/-- `SmartFuture.__await__`, resume side: `self._waiters.remove(current_task)`. -/
def await_leave (sys : SmartFutureSys) (f t : Nat) : SmartFutureSys :=
  mutate_waiters sys f (fun s => s.erase t)

/-- The events that touch `_waiters`: a task starts or stops awaiting a
future.  Creating a `SmartFuture` runs no code that assigns `_waiters`. -/
inductive FutOp where
  | enter (f t : Nat)
  | leave (f t : Nat)

/-- Apply one `__await__` event. -/
def fut_step (sys : SmartFutureSys) : FutOp → SmartFutureSys
  | .enter f t => await_enter sys f t
  | .leave f t => await_leave sys f t

/-- The initial system: the class attribute starts as `set()` and no
instance has a `_waiters` entry in its `__dict__`. -/
def init_fut_sys : SmartFutureSys :=
  { class_waiters := [], inst_waiters := fun _ => none }

/-- Run a sequence of `__await__` events from the initial system. -/
def run_fut_ops (ops : List FutOp) : SmartFutureSys :=
  ops.foldl fut_step init_fut_sys

/-! ## `TaskMapping` (modelled from the spec)

`a_sync/task.py` is not part of the source snapshot (only its tests,
`src/tests/test_task.py`, are), so `TaskMapping` is modelled from the spec's
words.  Task handles are identified by ids allocated in creation order; the
`invocations` field logs every invocation of the wrapped function. -/

structure TaskMapping (K : Type) where
  /-- `mapping<key, ComputationHandle>`, insertion-ordered, keys unique. -/
  entries : List (K × Nat)
  /-- Log of the keys the wrapped function has been invoked with. -/
  invocations : List K
  /-- Next fresh handle id. -/
  next_task : Nat
  /-- Whether a bulk `map` call is currently active on this instance. -/
  map_active : Bool

/-- Look a key up in the insertion-ordered entry list. -/
def tm_lookup {K : Type} [DecidableEq K] : List (K × Nat) → K → Option Nat
  | [], _ => none
  | e :: rest, k => if e.1 = k then some e.2 else tm_lookup rest k

/-- Modelled from the spec: `TaskMapping.__getitem__(key)` (`a_sync/task.py`
is not in src/) — "if `key` already has a cached handle, return it; else
create a new computation handle by invoking `function(key, **fixed_kwargs)`
as a scheduled unit of work, cache it under `key`, return it. Never creates
two handles for the same key (race-safe under single-threaded cooperative
scheduling because creation and cache-insert happen without an intervening
suspension point)."  Creation and cache-insert are one atomic step. -/
def tm_getitem {K : Type} [DecidableEq K] (m : TaskMapping K) (k : K) :
    Nat × TaskMapping K :=
  match tm_lookup m.entries k with
  | some h => (h, m)
  | none =>
    (m.next_task,
      { m with
        entries := m.entries ++ [(k, m.next_task)]
        invocations := m.invocations ++ [k]
        next_task := m.next_task + 1 })

/-- The empty mapping, fresh from `TaskMapping(fn)`. -/
def tm_init (K : Type) : TaskMapping K :=
  { entries := [], invocations := [], next_task := 0, map_active := false }

/-- Retrieve `m[k]` for each key of `ks` in order, from state `m`. -/
def tm_run_from {K : Type} [DecidableEq K] (m : TaskMapping K) (ks : List K) :
    TaskMapping K :=
  ks.foldl (fun s k => (tm_getitem s k).2) m

/-- Retrieve `m[k]` for each key of `ks` in order, from a fresh mapping. -/
def tm_run {K : Type} [DecidableEq K] (ks : List K) : TaskMapping K :=
  tm_run_from (tm_init K) ks

/-- The at-most-once bookkeeping invariant for one key: the wrapped function
has been invoked for `k` exactly as often as `k` has a cached handle. -/
def tm_ok {K : Type} [DecidableEq K] (m : TaskMapping K) (k : K) : Prop :=
  m.invocations.count k = (if (tm_lookup m.entries k).isSome then 1 else 0)

/-- The state error raised at a contract violation. -/
inductive MapError where
  | runtimeError
  deriving DecidableEq, Repr

/-- Modelled from the spec: the concurrency guard of `TaskMapping.map`
(`a_sync/task.py` is not in src/) — "Only one `map` call may be active on a
given mapping instance at a time; a concurrent second call fails with a state
error", "raised synchronously at the call that violates the contract".  A
second `map` started while one is active fails immediately with
`RuntimeError` and leaves the mapping untouched; otherwise the map becomes
active over the given keys. -/
def tm_map_start {K : Type} [DecidableEq K] (m : TaskMapping K) (ks : List K) :
    Except MapError Unit × TaskMapping K :=
  if m.map_active then (.error .runtimeError, m)
  else (.ok (), { tm_run_from m ks with map_active := true })

/-! ## Priority semaphore (`a_sync/primitives/locks/prio_semaphore.py`)

`_AbstractPrioritySemaphore` keeps: `_value` (available permits, inherited
from the base `Semaphore`), `_waiters` (a `heapq` heap of the per-priority
context managers, ordered by `__lt__` on `_priority`), `_context_managers`
(a dict priority → context manager) and `_potential_lost_waiters` (a list of
waiter futures).  Each context manager holds a FIFO `deque` of waiter
futures.

Model: waiter futures are `Nat` ids with an explicit status map; priorities
are `Int` (`PrioritySemaphore` uses numeric priorities); the dict is an
insertion-ordered association list priority → deque.  A context manager is
identified with its priority: the managers stored in the heap and the dict
are the same objects, one per distinct priority (`__getitem__` creates at
most one per priority), and `__lt__` compares `_priority` alone, so a list
of priorities is a faithful image of the heap.  The `heapq` heap itself is
modelled through its contract — `heappush` inserts an element, `heappop`
removes and returns the smallest — by keeping the model list sorted, which
is observationally equivalent because the code never reads the heap list
except through `heappush`/`heappop` (tie order cannot matter: the heap never
holds two managers of equal priority). -/

/-- The status of a waiter future: `pending` (not done), `granted`
(`set_result(None)` was called), or `cancelled`. -/
inductive WStatus where
  | pending
  | granted
  | cancelled
  deriving DecidableEq, Repr

/-- `Future.done()`: true once granted or cancelled. -/
def wdone : WStatus → Bool
  | .pending => false
  | _ => true

/-- Point update of a status map. -/
def update_status (st : Nat → WStatus) (w : Nat) (v : WStatus) : Nat → WStatus :=
  fun x => if x = w then v else st x

/-- The machine state of a `_AbstractPrioritySemaphore` together with the
futures it has created. -/
structure SemState where
  /-- `self._value`: the available permits. -/
  value : Int
  /-- `self._waiters` on the parent semaphore: the `heapq` heap of context
  managers, each represented by its `_priority` (kept sorted; see above). -/
  heap : List Int
  /-- `self._context_managers`: priority → the manager's `_waiters` deque
  (front = oldest), as an insertion-ordered association list. -/
  cms : List (Int × List Nat)
  /-- `self._potential_lost_waiters`. -/
  lost : List Nat
  /-- The status of every waiter future id. -/
  status : Nat → WStatus
  /-- Next fresh future id. -/
  next_id : Nat

/-- Dict lookup in `_context_managers`. -/
def lookup_cm : List (Int × List Nat) → Int → Option (List Nat)
  | [], _ => none
  | e :: rest, p => if e.1 = p then some e.2 else lookup_cm rest p

/-- `self._context_managers.pop(priority)`: drop the entry for `p`. -/
def erase_cm : List (Int × List Nat) → Int → List (Int × List Nat)
  | [], _ => []
  | e :: rest, p => if e.1 = p then rest else e :: erase_cm rest p

/-- Replace the deque stored for priority `p` (in-place mutation of the
manager's deque). -/
def set_cm : List (Int × List Nat) → Int → List Nat → List (Int × List Nat)
  | [], _, _ => []
  | e :: rest, p, d => if e.1 = p then (e.1, d) :: rest else e :: set_cm rest p d

/-- `self.waiters.append(fut)` on the manager for priority `p`: append the
waiter at the back of that manager's deque.  (When `p` has no entry the
coroutine's manager object is detached from `_context_managers`; its private
deque is unreachable by the bucket-based wakeup, so only the
`_potential_lost_waiters` copy — which the caller appends separately —
remains observable, and the map is left unchanged.) -/
def bucket_append : List (Int × List Nat) → Int → Nat → List (Int × List Nat)
  | [], _, _ => []
  | e :: rest, p, w => if e.1 = p then (e.1, e.2 ++ [w]) :: rest else e :: bucket_append rest p w

/-- `heapq.heappush` on the heap of managers, through the heapq contract
(see the section comment): ordered insertion. -/
def heap_push (heap : List Int) (p : Int) : List Int :=
  heap.orderedInsert (· ≤ ·) p

/-- `PrioritySemaphore._top_priority` (prio_semaphore.py line 306). -/
def top_priority : Int := -1

/-- `priority = self._top_priority if priority is None else priority`
(prio_semaphore.py line 86). -/
def prio_or_top : Option Int → Int
  | none => top_priority
  | some q => q

/-- `_AbstractPrioritySemaphore.__getitem__` (prio_semaphore.py lines 75-93):
`None` means the top priority; a missing context manager is created, pushed
onto the heap, and stored in the dict.  Returns the priority whose manager
is returned together with the new state. -/
def sem_getitem (s : SemState) (priority : Option Int) : Int × SemState :=
  let p := prio_or_top priority
  if (lookup_cm s.cms p).isSome then (p, s)
  else (p, { s with heap := heap_push s.heap p, cms := s.cms ++ [(p, [])] })

/-- The inner `while manager._waiters:` loop of `_wake_up_next`
(prio_semaphore.py lines 145-152): pop waiters from the front of the deque,
each popped waiter being removed (`list.remove`, first occurrence) from
`_potential_lost_waiters`, until one is not done; that one gets
`set_result(None)`.  Returns (`some (waiter, remaining deque)` if one was
woken, else `none` with the deque exhausted) and the new lost list. -/
def drain_bucket (st : Nat → WStatus) :
    List Nat → List Nat → Option (Nat × List Nat) × List Nat
  | [], lost => (none, lost)
  | w :: rest, lost =>
    let lost' := lost.erase w
    if wdone (st w) then drain_bucket st rest lost'
    else (some (w, rest), lost')

/-- The "emergency procedure" of `_wake_up_next` (prio_semaphore.py lines
170-178): pop entries off `_potential_lost_waiters` until a not-done one is
found and granted.  Returns the new status map and lost list. -/
def emergency_wake : List Nat → (Nat → WStatus) → (Nat → WStatus) × List Nat
  | [], st => (st, [])
  | w :: rest, st =>
    if wdone (st w) then emergency_wake rest st
    else (update_status st w .granted, rest)

/-- The `while self._waiters:` loop of `_AbstractPrioritySemaphore
._wake_up_next` (prio_semaphore.py lines 126-178), as a function of the four
state components it reads and writes (heap, dict, lost list, statuses): pop
the lowest-priority manager off the heap; if its deque is empty, drop it
from the dict and continue; otherwise pop waiters (removing each from the
lost list) until a live one is granted — if none was, drop the manager from
the dict and continue; after a grant, push the manager back iff its deque is
still non-empty, else drop it from the dict, and return.  When the heap runs
out, the emergency procedure scans the lost list.  (A heap element with no
dict entry cannot occur — every heap element has one — and is skipped to
keep the function total.)  Each iteration pops the heap, so the recursion is
structural on the heap list. -/
def wake_loop :
    List Int → List (Int × List Nat) → List Nat → (Nat → WStatus) →
    List Int × List (Int × List Nat) × List Nat × (Nat → WStatus)
  | [], cms, lost, st =>
    let r := emergency_wake lost st
    ([], cms, r.2, r.1)
  | p :: h', cms, lost, st =>
    match lookup_cm cms p with
    | none => wake_loop h' cms lost st
    | some d =>
      if d.isEmpty then
        wake_loop h' (erase_cm cms p) lost st
      else
        match drain_bucket st d lost with
        | (none, lost') => wake_loop h' (erase_cm cms p) lost' st
        | (some (w, rest), lost') =>
          if rest.isEmpty then
            (h', erase_cm cms p, lost', update_status st w .granted)
          else
            (heap_push h' p, set_cm cms p rest, lost', update_status st w .granted)

/-- `_AbstractPrioritySemaphore._wake_up_next` (prio_semaphore.py lines
119-178). -/
def wake_up_next (s : SemState) : SemState :=
  let r := wake_loop s.heap s.cms s.lost s.status
  { s with heap := r.1, cms := r.2.1, lost := r.2.2.1, status := r.2.2.2 }

/-- Modelled from the spec: `Semaphore.release` of the base class
(`a_sync/primitives/locks/semaphore.py` is not in src/) — "`release()`:
increments `available`, then wakes exactly one waiter" — where the wakeup is
the overridden `_wake_up_next` above. -/
def sem_release (s : SemState) : SemState :=
  wake_up_next { s with value := s.value + 1 }

/-- The result of one scheduler step of a pending `acquire` coroutine. -/
inductive AcqOutcome where
  | acquired
  | suspended (w : Nat)
  deriving DecidableEq, Repr

/-- One step of `_AbstractPrioritySemaphoreContextManager.acquire`
(prio_semaphore.py lines 244-268) between suspension points, on the manager
for priority `p`: if `self._parent._value <= 0`, create a fresh future,
append it to the manager's deque and to `_potential_lost_waiters`, and
suspend on it; otherwise leave the `while` loop and run
`self._parent._value -= 1`, returning `True`.  The same code runs both on
entry and each time the coroutine resumes after its future is granted. -/
def cm_acquire_step (s : SemState) (p : Int) : AcqOutcome × SemState :=
  if s.value ≤ 0 then
    let w := s.next_id
    (.suspended w,
      { s with cms := bucket_append s.cms p w, lost := s.lost ++ [w],
               next_id := w + 1 })
  else
    (.acquired, { s with value := s.value - 1 })

/-- The `except:` handler of `acquire` (prio_semaphore.py lines 259-266),
run when the suspended coroutine is cancelled: `fut.cancel()` (cancels the
future iff it is not yet done), then `if self._parent._value > 0 and not
fut.cancelled(): self._parent._wake_up_next()`. -/
def cm_acquire_cancel (s : SemState) (w : Nat) : SemState :=
  let st1 := if s.status w = .pending then update_status s.status w .cancelled else s.status
  let s1 := { s with status := st1 }
  if 0 < s1.value ∧ st1 w ≠ .cancelled then wake_up_next s1 else s1

/-- `_AbstractPrioritySemaphore.acquire` (prio_semaphore.py lines 71-73):
`await self[self._top_priority].acquire()` — one scheduler step. -/
def sem_acquire (s : SemState) : AcqOutcome × SemState :=
  let r := sem_getitem s (some top_priority)
  cm_acquire_step r.2 r.1

/-- `_AbstractPrioritySemaphore.__aenter__` (prio_semaphore.py lines 63-65):
`await self[self._top_priority].acquire()` — one scheduler step. -/
def sem_aenter (s : SemState) : AcqOutcome × SemState :=
  let r := sem_getitem s (some top_priority)
  cm_acquire_step r.2 r.1

/-- Stated from the spec's words, for comparison with the source-derived
entry points: "The no-priority entry point … is equivalent to
`acquire(top_priority)`" with the reserved top priority `-1`: acquiring
through the context manager obtained by indexing the semaphore at `-1`. -/
def acquire_via_cm_at_top (s : SemState) : AcqOutcome × SemState :=
  let r := sem_getitem s (some (-1))
  cm_acquire_step r.2 r.1

/-- A fresh `PrioritySemaphore(value)` (prio_semaphore.py lines 37-57):
`_value = value`, empty heap, dict and lost list, no futures yet. -/
def init_sem (capacity : Int) : SemState :=
  { value := capacity, heap := [], cms := [], lost := [],
    status := fun _ => .pending, next_id := 0 }

/-- The scheduler-visible operations on a priority semaphore: `__getitem__`,
the first step of an `acquire` at a priority (which performs the indexing),
the resumption step of a woken `acquire` coroutine (same code as the first
step), the cancellation handler of a suspended waiter, and `release`. -/
inductive SemOp where
  | getitem (p : Option Int)
  | acquire (p : Int)
  | resume (p : Int)
  | cancel (w : Nat)
  | release

/-- Apply one operation. -/
def sem_step (s : SemState) : SemOp → SemState
  | .getitem p => (sem_getitem s p).2
  | .acquire p =>
    let r := sem_getitem s (some p)
    (cm_acquire_step r.2 r.1).2
  | .resume p => (cm_acquire_step s p).2
  | .cancel w => cm_acquire_cancel s w
  | .release => sem_release s

/-- Run a sequence of operations on a fresh semaphore of the given capacity. -/
def exec_sem (capacity : Int) (ops : List SemOp) : SemState :=
  ops.foldl sem_step (init_sem capacity)

/-- The keys of `_context_managers`. -/
def cm_keys (s : SemState) : List Int := s.cms.map Prod.fst

/-- Structural well-formedness of a semaphore state: the heap is sorted and
duplicate-free, heap membership coincides with presence in
`_context_managers`, and the dict's keys are unique. -/
def sem_wf (s : SemState) : Prop :=
  s.heap.Sorted (· ≤ ·) ∧ s.heap.Nodup ∧
  (∀ p ∈ s.heap, p ∈ cm_keys s) ∧ (∀ p ∈ cm_keys s, p ∈ s.heap) ∧
  (cm_keys s).Nodup

/-! ## Theorems -/

/-! ### Worker loop (`_worker_coro`) -/

theorem worker_loop_eq_map {V E : Type} (items : List (Outcome V E)) :
    worker_loop items = items.map worker_result := by
  induction items with
  | nil => rfl
  | cons o rest ih => cases o <;> simp [worker_loop, worker_result, ih]

/-- C2 (counterexample): a worker executing an item whose bound call raises
`7` stores the exception object as the future's *result* (`set_result(e)`),
so awaiting that handle returns the exception object as a normal value — it
is not re-raised. -/
theorem C2_await_not_reraised_counterexample :
    worker_loop [Outcome.raised (7 : Nat), Outcome.ok (42 : Nat)] =
      [FutState.result (FutVal.exn 7), FutState.result (FutVal.val 42)] ∧
    await_fut (FutState.result (FutVal.exn 7) : FutState Nat Nat) =
      some (Except.ok (FutVal.exn 7)) ∧
    await_fut (FutState.result (FutVal.exn 7) : FutState Nat Nat) ≠
      some (Except.error 7) := by
  refine ⟨rfl, rfl, by simp [await_fut]⟩

/-- C2 (amended): for every item whose bound call raises `e`, the worker
loop keeps running — every queued item's handle gets resolved, none is left
pending — and that item's handle is resolved with the exception object as
its result, so awaiting it yields the original exception object as a
normally returned value (never a raised error, never a value of the bound
call's success type). -/
theorem C2_worker_captures_error_as_result {V E : Type}
    (items : List (Outcome V E)) (i : Nat) (e : E)
    (hi : items[i]? = some (Outcome.raised e)) :
    (worker_loop items).length = items.length ∧
    (worker_loop items)[i]? = some (FutState.result (FutVal.exn e)) ∧
    await_fut (FutState.result (FutVal.exn e) : FutState V E) =
      some (Except.ok (FutVal.exn e)) ∧
    (∀ (j : Nat) (hs : FutState V E),
      (worker_loop items)[j]? = some hs → hs ≠ FutState.pending) := by
  refine ⟨by simp [worker_loop_eq_map], ?_, rfl, ?_⟩
  · simp [worker_loop_eq_map, List.getElem?_map, hi, worker_result]
  · intro j hs hj
    rw [worker_loop_eq_map, List.getElem?_map] at hj
    cases hjs : items[j]? with
    | none => rw [hjs] at hj; cases hj
    | some o =>
      rw [hjs] at hj
      cases o <;> simp [worker_result] at hj <;> rw [← hj] <;> simp

theorem C2_worker_captures_error_as_result_witness :
    (worker_loop [Outcome.raised (7 : Nat), Outcome.ok (42 : Nat)]).length = 2 ∧
    (worker_loop [Outcome.raised (7 : Nat), Outcome.ok (42 : Nat)])[0]? =
      some (FutState.result (FutVal.exn 7)) ∧
    await_fut (FutState.result (FutVal.exn 7) : FutState Nat Nat) =
      some (Except.ok (FutVal.exn 7)) ∧
    (∀ (j : Nat) (hs : FutState Nat Nat),
      (worker_loop [Outcome.raised (7 : Nat), Outcome.ok (42 : Nat)])[j]? =
        some hs → hs ≠ FutState.pending) := by
  have h := C2_worker_captures_error_as_result
    [Outcome.raised (7 : Nat), Outcome.ok (42 : Nat)] 0 7 rfl
  exact ⟨h.1, h.2.1, h.2.2.1, h.2.2.2⟩

/-! ### Queue bulk fetch (`get_multi`) -/

/-- C3 (code evaluated at the failing inputs): `get_multi(2,
can_return_less=True)` on a queue holding two items returns zero items
without touching the queue (the loop guard `and not can_return_less` skips
the whole loop); `get_multi(3)` on a queue holding `[1, 2]` with further
items arriving dequeues both items and then raises `ValueError` out of its
internal `get_multi_nowait(1, ...)` call, losing the two dequeued items; and
`get_multi(4)` on `[1, 2]` with three later arrivals drops every dequeued
item (`items = [await self.get()]`) and blocks forever. -/
theorem C3_get_multi_failing_inputs :
    get_multi ([1, 2] : List Nat) [] 2 true = some (.ok [], [1, 2], []) ∧
    get_multi ([1, 2] : List Nat) [3, 4, 5] 3 false =
      some (.error .valueError, [], [3, 4, 5]) ∧
    get_multi ([1, 2] : List Nat) [3, 4, 5] 4 false = none := by
  refine ⟨rfl, rfl, rfl⟩

/-! ### `SmartFuture` waiter sharing -/

theorem fut_step_inst_none (sys : SmartFutureSys)
    (h : ∀ f, sys.inst_waiters f = none) (op : FutOp) :
    ∀ f, (fut_step sys op).inst_waiters f = none := by
  cases op with
  | enter f t => intro g; simp [fut_step, await_enter, mutate_waiters, h f, h g]
  | leave f t => intro g; simp [fut_step, await_leave, mutate_waiters, h f, h g]

theorem run_fut_ops_inst_none (ops : List FutOp) :
    ∀ f, (run_fut_ops ops).inst_waiters f = none := by
  have key : ∀ (ops : List FutOp) (sys : SmartFutureSys),
      (∀ f, sys.inst_waiters f = none) →
      ∀ f, (ops.foldl fut_step sys).inst_waiters f = none := by
    intro ops
    induction ops with
    | nil => intro sys h; exact h
    | cons op rest ih =>
      intro sys h
      exact ih (fut_step sys op) (fut_step_inst_none sys h op)
  exact key ops init_fut_sys (fun _ => rfl)

/-- C5: `SmartFuture._waiters` is a class-level set, `__await__` only ever
mutates the object attribute lookup returns, and no instance attribute is
ever assigned, so after any sequence of `__await__` entries/exits every
instance reports the same waiter count and no future is ever strictly less
than another under the heap ordering. -/
theorem C5_smartfuture_waiters_shared (ops : List FutOp) (f g : Nat) :
    (run_fut_ops ops).inst_waiters f = none ∧
    num_waiters (run_fut_ops ops) f = num_waiters (run_fut_ops ops) g ∧
    smart_fut_lt (run_fut_ops ops) f g = false := by
  have h := run_fut_ops_inst_none ops
  refine ⟨h f, ?_, ?_⟩
  · simp [num_waiters, get_waiters, h f, h g]
  · simp [smart_fut_lt, num_waiters, get_waiters, h f, h g]

/-- C4 (code evaluated at the failing input): two `SmartFuture`s `0` and
`1`; one task (id `7`) starts awaiting future `1` only.  Both futures
nevertheless report one waiter — the set is shared — and `1 < 0` is false,
so a heap pop does not prefer the awaited future over the idle one. -/
theorem C4_demand_ordering_failing_input :
    num_waiters (run_fut_ops [FutOp.enter 1 7]) 1 = 1 ∧
    num_waiters (run_fut_ops [FutOp.enter 1 7]) 0 = 1 ∧
    smart_fut_lt (run_fut_ops [FutOp.enter 1 7]) 1 0 = false := by
  refine ⟨rfl, rfl, rfl⟩

/-! ### `TaskMapping` (spec-modelled) -/

theorem tm_lookup_append_of_some {K : Type} [DecidableEq K]
    (es es' : List (K × Nat)) (k : K) (hid : Nat)
    (h : tm_lookup es k = some hid) : tm_lookup (es ++ es') k = some hid := by
  induction es with
  | nil => simp [tm_lookup] at h
  | cons e rest ih =>
    by_cases hek : e.1 = k
    · simp [tm_lookup, hek] at h ⊢; exact h
    · simp [tm_lookup, hek] at h ⊢; exact ih h

theorem tm_lookup_append_self {K : Type} [DecidableEq K]
    (es : List (K × Nat)) (k : K) (hid : Nat)
    (h : tm_lookup es k = none) : tm_lookup (es ++ [(k, hid)]) k = some hid := by
  induction es with
  | nil => simp [tm_lookup]
  | cons e rest ih =>
    by_cases hek : e.1 = k
    · simp [tm_lookup, hek] at h
    · simp [tm_lookup, hek] at h ⊢; exact ih h

theorem tm_lookup_append_other {K : Type} [DecidableEq K]
    (es : List (K × Nat)) (k k' : K) (hid : Nat) (hk : k' ≠ k)
    (h : tm_lookup es k = none) : tm_lookup (es ++ [(k', hid)]) k = none := by
  induction es with
  | nil => simp [tm_lookup, hk]
  | cons e rest ih =>
    by_cases hek : e.1 = k
    · simp [tm_lookup, hek] at h
    · simp [tm_lookup, hek] at h ⊢; exact ih h

theorem tm_getitem_stable {K : Type} [DecidableEq K]
    (m : TaskMapping K) (k k' : K) (hid : Nat)
    (h : tm_lookup m.entries k = some hid) :
    tm_lookup (tm_getitem m k').2.entries k = some hid := by
  unfold tm_getitem
  cases hl : tm_lookup m.entries k' with
  | some h2 => simpa using h
  | none => simpa using tm_lookup_append_of_some _ _ _ _ h

theorem tm_run_from_stable {K : Type} [DecidableEq K]
    (ks : List K) (m : TaskMapping K) (k : K) (hid : Nat)
    (h : tm_lookup m.entries k = some hid) :
    tm_lookup (tm_run_from m ks).entries k = some hid := by
  induction ks generalizing m with
  | nil => exact h
  | cons k' rest ih => exact ih (tm_getitem m k').2 (tm_getitem_stable m k k' hid h)

theorem tm_ok_getitem {K : Type} [DecidableEq K]
    (m : TaskMapping K) (k k' : K) (h : tm_ok m k) :
    tm_ok (tm_getitem m k').2 k := by
  unfold tm_ok tm_getitem at *
  cases hl : tm_lookup m.entries k' with
  | some h2 => simpa using h
  | none =>
    by_cases hk : k' = k
    · subst hk
      simp [List.count_append, h, hl, tm_lookup_append_self m.entries k' m.next_task hl]
    · cases hlk : tm_lookup m.entries k with
      | none =>
        simp [hlk] at h
        simp [List.count_append, List.count_cons, List.count_nil, h, hk,
          tm_lookup_append_other m.entries k k' m.next_task hk hlk]
      | some h3 =>
        simp [hlk] at h
        simp [List.count_append, List.count_cons, List.count_nil, h, hk,
          tm_lookup_append_of_some m.entries [(k', m.next_task)] k h3 hlk]

theorem tm_ok_run_from {K : Type} [DecidableEq K]
    (ks : List K) (m : TaskMapping K) (k : K) (h : tm_ok m k) :
    tm_ok (tm_run_from m ks) k := by
  induction ks generalizing m with
  | nil => exact h
  | cons k' rest ih => exact ih (tm_getitem m k').2 (tm_ok_getitem m k k' h)

theorem tm_run_from_mem_isSome {K : Type} [DecidableEq K]
    (ks : List K) (m : TaskMapping K) (k : K) (h : k ∈ ks) :
    (tm_lookup (tm_run_from m ks).entries k).isSome := by
  induction ks generalizing m with
  | nil => cases h
  | cons k' rest ih =>
    rcases List.mem_cons.mp h with rfl | hmem
    · obtain ⟨hid, hh⟩ : ∃ hid, tm_lookup (tm_getitem m k).2.entries k = some hid := by
        cases hl : tm_lookup m.entries k with
        | some h2 => exact ⟨h2, by simp [tm_getitem, hl]⟩
        | none =>
          refine ⟨m.next_task, ?_⟩
          have := tm_lookup_append_self m.entries k m.next_task hl
          simpa [tm_getitem, hl] using this
      have hst := tm_run_from_stable rest (tm_getitem m k).2 k hid hh
      have hrw : tm_run_from m (k :: rest) = tm_run_from (tm_getitem m k).2 rest := rfl
      rw [hrw, hst]
      rfl
    · exact ih (tm_getitem m k').2 hmem

/-- C7: for a `TaskMapping`, after any access sequence containing key `k`,
the wrapped function has been invoked exactly once for `k`, a handle for `k`
is cached, a further retrieval returns exactly that cached handle without
changing the mapping, and the cached handle (and the once-only invocation
count) survive any further retrievals — so all retrievals of `mapping[k]`
yield the identical handle. -/
theorem C7_at_most_once_per_key {K : Type} [DecidableEq K]
    (ks : List K) (k : K) (h : k ∈ ks) :
    ∃ hid, tm_lookup (tm_run ks).entries k = some hid ∧
      (tm_run ks).invocations.count k = 1 ∧
      tm_getitem (tm_run ks) k = (hid, tm_run ks) ∧
      ∀ more : List K,
        tm_lookup (tm_run_from (tm_run ks) more).entries k = some hid ∧
        (tm_run_from (tm_run ks) more).invocations.count k = 1 := by
  have hok : tm_ok (tm_run ks) k := by
    refine tm_ok_run_from ks (tm_init K) k ?_
    simp [tm_ok, tm_init, tm_lookup]
  have hsome : (tm_lookup (tm_run ks).entries k).isSome :=
    tm_run_from_mem_isSome ks (tm_init K) k h
  obtain ⟨hid, hh⟩ := Option.isSome_iff_exists.mp hsome
  refine ⟨hid, hh, ?_, ?_, ?_⟩
  · unfold tm_ok at hok; rw [hh] at hok; simpa using hok
  · simp [tm_getitem, hh]
  · intro more
    have hst := tm_run_from_stable more (tm_run ks) k hid hh
    have hok2 := tm_ok_run_from more (tm_run ks) k hok
    unfold tm_ok at hok2
    rw [hst] at hok2
    exact ⟨hst, by simpa using hok2⟩

theorem C7_at_most_once_per_key_witness :
    ∃ hid, tm_lookup (tm_run [0, 1, 0, 1]).entries 0 = some hid ∧
      (tm_run [0, 1, 0, 1]).invocations.count 0 = 1 ∧
      tm_getitem (tm_run [0, 1, 0, 1]) 0 = (hid, tm_run [0, 1, 0, 1]) ∧
      ∀ more : List Nat,
        tm_lookup (tm_run_from (tm_run [0, 1, 0, 1]) more).entries 0 = some hid ∧
        (tm_run_from (tm_run [0, 1, 0, 1]) more).invocations.count 0 = 1 :=
  C7_at_most_once_per_key [0, 1, 0, 1] 0 (by decide)

/-- C10: starting a `map` on a `TaskMapping` that already has an active
`map` fails immediately and synchronously with the state error
(`RuntimeError`) and leaves the mapping — and hence the first map — entirely
unchanged. -/
theorem C10_concurrent_map_rejected {K : Type} [DecidableEq K]
    (m : TaskMapping K) (ks : List K) (h : m.map_active = true) :
    tm_map_start m ks = (.error .runtimeError, m) := by
  simp [tm_map_start, h]

theorem C10_concurrent_map_rejected_witness :
    tm_map_start
        ({ entries := [(0, 0)], invocations := [0], next_task := 1,
           map_active := true } : TaskMapping Nat) [1, 2] =
      (.error .runtimeError,
        { entries := [(0, 0)], invocations := [0], next_task := 1,
          map_active := true }) :=
  C10_concurrent_map_rejected _ [1, 2] rfl

/-! ### Priority semaphore: equivalent entry points -/

/-- C9: the no-priority entry points of the priority semaphore — `acquire()`
with no argument, and entering the semaphore directly as an async context
manager — produce, on every state, exactly the same transition and result as
acquiring through the context manager indexed at the reserved top priority
`-1`; indexing with `None` is likewise indexing at `-1`. -/
theorem C9_no_priority_equals_top_priority (s : SemState) :
    sem_acquire s = acquire_via_cm_at_top s ∧
    sem_aenter s = acquire_via_cm_at_top s ∧
    sem_getitem s none = sem_getitem s (some (-1)) :=
  ⟨rfl, rfl, rfl⟩

/-! ### Priority semaphore: bucket lifecycle (C6) -/

/-- C6 (counterexample): a bucket with zero waiters can be present in both
the buckets map and the bucket heap after a plain `__getitem__`, and it
remains present after a successful immediate `acquire` at its priority —
buckets are deleted lazily, not the moment they are waiter-free. -/
theorem C6_empty_bucket_persists_counterexample :
    lookup_cm (exec_sem 1 [SemOp.getitem (some 5)]).cms 5 = some [] ∧
    (5 : Int) ∈ (exec_sem 1 [SemOp.getitem (some 5)]).heap ∧
    lookup_cm (exec_sem 1 [SemOp.acquire 5]).cms 5 = some [] ∧
    (5 : Int) ∈ (exec_sem 1 [SemOp.acquire 5]).heap := by
  refine ⟨rfl, by decide, rfl, by decide⟩

/-! ### Association-list and heap lemmas for the semaphore -/

theorem lookup_cm_mem {cms : List (Int × List Nat)} {p : Int} {d : List Nat}
    (h : lookup_cm cms p = some d) : (p, d) ∈ cms := by
  induction cms with
  | nil => cases h
  | cons e rest ih =>
    obtain ⟨a, b⟩ := e
    by_cases hep : a = p
    · simp [lookup_cm, hep] at h
      simp [hep, h]
    · simp [lookup_cm, hep] at h
      exact List.mem_cons_of_mem _ (ih h)

theorem lookup_cm_isSome_of_mem_keys {cms : List (Int × List Nat)} {p : Int}
    (h : p ∈ cms.map Prod.fst) : (lookup_cm cms p).isSome := by
  induction cms with
  | nil => cases h
  | cons e rest ih =>
    by_cases hep : e.1 = p
    · simp [lookup_cm, hep]
    · simp [hep] at h
      rcases h with h | h
      · exact absurd h (fun hh => hep hh.symm)
      · simpa [lookup_cm, hep] using ih (by simpa using h)

theorem mem_keys_of_lookup_cm_isSome {cms : List (Int × List Nat)} {p : Int}
    (h : (lookup_cm cms p).isSome) : p ∈ cms.map Prod.fst := by
  induction cms with
  | nil => simp [lookup_cm] at h
  | cons e rest ih =>
    by_cases hep : e.1 = p
    · exact List.mem_map.mpr ⟨e, List.mem_cons_self _ _, hep⟩
    · simp [lookup_cm, hep] at h
      rcases List.mem_map.mp (ih h) with ⟨e2, hmem, hfst⟩
      exact List.mem_map.mpr ⟨e2, List.mem_cons_of_mem _ hmem, hfst⟩

theorem lookup_cm_eq_none_of_not_mem {cms : List (Int × List Nat)} {p : Int}
    (h : p ∉ cms.map Prod.fst) : lookup_cm cms p = none := by
  cases hl : lookup_cm cms p with
  | none => rfl
  | some d => exact absurd (mem_keys_of_lookup_cm_isSome (by simp [hl])) h

theorem lookup_erase_cm_of_ne {cms : List (Int × List Nat)} {p q : Int}
    (h : q ≠ p) : lookup_cm (erase_cm cms p) q = lookup_cm cms q := by
  induction cms with
  | nil => rfl
  | cons e rest ih =>
    by_cases hep : e.1 = p
    · simp [erase_cm, hep, lookup_cm, Ne.symm h]
    · simp only [erase_cm, if_neg hep]
      by_cases heq : e.1 = q
      · simp [lookup_cm, heq]
      · simp [lookup_cm, heq, ih]

theorem erase_cm_sublist (cms : List (Int × List Nat)) (p : Int) :
    List.Sublist (erase_cm cms p) cms := by
  induction cms with
  | nil => exact List.Sublist.refl _
  | cons e rest ih =>
    by_cases hep : e.1 = p
    · simp only [erase_cm, if_pos hep]
      exact List.sublist_cons_self _ _
    · simp only [erase_cm, if_neg hep]
      exact List.Sublist.cons₂ _ ih

theorem lookup_erase_cm_self {cms : List (Int × List Nat)} {p : Int}
    (h : (cms.map Prod.fst).Nodup) : lookup_cm (erase_cm cms p) p = none := by
  induction cms with
  | nil => rfl
  | cons e rest ih =>
    rw [List.map_cons, List.nodup_cons] at h
    by_cases hep : e.1 = p
    · simp only [erase_cm, if_pos hep]
      refine lookup_cm_eq_none_of_not_mem ?_
      rw [← hep]
      exact h.1
    · simp only [erase_cm, if_neg hep, lookup_cm, if_neg hep]
      exact ih h.2

theorem set_cm_keys (cms : List (Int × List Nat)) (p : Int) (d : List Nat) :
    (set_cm cms p d).map Prod.fst = cms.map Prod.fst := by
  induction cms with
  | nil => rfl
  | cons e rest ih =>
    by_cases hep : e.1 = p
    · simp [set_cm, hep]
    · simp [set_cm, hep, ih]

theorem lookup_set_cm_self {cms : List (Int × List Nat)} {p : Int} (d : List Nat)
    (h : (lookup_cm cms p).isSome) : lookup_cm (set_cm cms p d) p = some d := by
  induction cms with
  | nil => simp [lookup_cm] at h
  | cons e rest ih =>
    by_cases hep : e.1 = p
    · simp [set_cm, hep, lookup_cm]
    · simp [lookup_cm, hep] at h
      simp [set_cm, hep, lookup_cm, ih h]

theorem lookup_set_cm_of_ne {cms : List (Int × List Nat)} {p q : Int} (d : List Nat)
    (h : q ≠ p) : lookup_cm (set_cm cms p d) q = lookup_cm cms q := by
  induction cms with
  | nil => rfl
  | cons e rest ih =>
    by_cases hep : e.1 = p
    · simp [set_cm, hep, lookup_cm, Ne.symm h]
    · simp only [set_cm, if_neg hep]
      by_cases heq : e.1 = q
      · simp [lookup_cm, heq]
      · simp [lookup_cm, heq, ih]

theorem bucket_append_keys (cms : List (Int × List Nat)) (p : Int) (w : Nat) :
    (bucket_append cms p w).map Prod.fst = cms.map Prod.fst := by
  induction cms with
  | nil => rfl
  | cons e rest ih =>
    by_cases hep : e.1 = p
    · simp [bucket_append, hep]
    · simp [bucket_append, hep, ih]

theorem lookup_cm_append_self {cms : List (Int × List Nat)} {p : Int}
    (x : List Nat) (h : lookup_cm cms p = none) :
    lookup_cm (cms ++ [(p, x)]) p = some x := by
  induction cms with
  | nil => simp [lookup_cm]
  | cons e rest ih =>
    by_cases hep : e.1 = p
    · simp [lookup_cm, hep] at h
    · simp [lookup_cm, hep] at h ⊢
      exact ih h

theorem wdone_false_iff (x : WStatus) : wdone x = false ↔ x = WStatus.pending := by
  cases x <;> simp [wdone]

theorem drain_bucket_fst_indep (st : Nat → WStatus) (d : List Nat) :
    ∀ l l', (drain_bucket st d l).1 = (drain_bucket st d l').1 := by
  induction d with
  | nil => intro l l'; rfl
  | cons w rest ih =>
    intro l l'
    by_cases hw : wdone (st w)
    · simp [drain_bucket, hw, ih (l.erase w) (l'.erase w)]
    · simp [drain_bucket, hw]

theorem drain_bucket_finds {st : Nat → WStatus} {d : List Nat}
    (hlv : ∃ w ∈ d, st w = WStatus.pending) (l : List Nat) :
    ∃ w rest, (drain_bucket st d l).1 = some (w, rest) := by
  induction d generalizing l with
  | nil => simp at hlv
  | cons w0 rest ih =>
    by_cases hw : wdone (st w0)
    · have hlv' : ∃ w ∈ rest, st w = WStatus.pending := by
        rcases hlv with ⟨w, hmem, hpend⟩
        rcases List.mem_cons.mp hmem with rfl | hmem'
        · rw [hpend] at hw; cases hw
        · exact ⟨w, hmem', hpend⟩
      simpa [drain_bucket, hw] using ih hlv' (l.erase w0)
    · exact ⟨w0, rest, by simp [drain_bucket, hw]⟩

theorem drain_bucket_none {st : Nat → WStatus} {d : List Nat}
    (h : ∀ w ∈ d, st w ≠ WStatus.pending) (l : List Nat) :
    (drain_bucket st d l).1 = none := by
  induction d generalizing l with
  | nil => rfl
  | cons w0 rest ih =>
    have hw : wdone (st w0) = true := by
      cases hst : st w0
      · exact absurd hst (h w0 (List.mem_cons_self _ _))
      · rfl
      · rfl
    simp only [drain_bucket, hw, if_pos]
    exact ih (fun w hw2 => h w (List.mem_cons_of_mem _ hw2)) _

theorem heap_push_mem {heap : List Int} {p q : Int} :
    q ∈ heap_push heap p ↔ q = p ∨ q ∈ heap :=
  List.mem_orderedInsert _

theorem heap_push_sorted {heap : List Int} {p : Int}
    (h : heap.Sorted (· ≤ ·)) : (heap_push heap p).Sorted (· ≤ ·) :=
  List.Sorted.orderedInsert p heap h

theorem heap_push_nodup {heap : List Int} {p : Int}
    (hn : heap.Nodup) (hp : p ∉ heap) : (heap_push heap p).Nodup := by
  have hperm := List.perm_orderedInsert (· ≤ ·) p heap
  exact (hperm.nodup_iff).mpr (by simp [hp, hn])

/-! ### The wake-up specification of `_wake_up_next` -/

/-- Walking the heap, `_wake_up_next` grants exactly the first not-done
waiter of the minimal-priority bucket that holds a pending waiter: the
statuses change by that single grant, the bucket keeps exactly its remaining
deque in the dict iff that deque is non-empty (otherwise the bucket is
discarded), and the bucket is back in the heap iff its deque is non-empty. -/
theorem wake_loop_spec (heap : List Int) :
    ∀ (cms : List (Int × List Nat)) (lost : List Nat) (st : Nat → WStatus)
      (p : Int) (d : List Nat),
    heap.Sorted (· ≤ ·) →
    heap.Nodup →
    (∀ q ∈ heap, q ∈ cms.map Prod.fst) →
    (∀ q ∈ cms.map Prod.fst, q ∈ heap) →
    (cms.map Prod.fst).Nodup →
    lookup_cm cms p = some d →
    (∃ w ∈ d, st w = WStatus.pending) →
    (∀ e ∈ cms, (∃ w ∈ e.2, st w = WStatus.pending) → p ≤ e.1) →
    ∃ w rest,
      (drain_bucket st d lost).1 = some (w, rest) ∧
      (wake_loop heap cms lost st).2.2.2 = update_status st w WStatus.granted ∧
      lookup_cm (wake_loop heap cms lost st).2.1 p =
        (if rest.isEmpty then none else some rest) ∧
      ((p ∈ (wake_loop heap cms lost st).1) ↔ rest.isEmpty = false) := by
  induction heap with
  | nil =>
    intro cms lost st p d _ _ _ hkeys2 _ hp _ _
    exact absurd (hkeys2 p (mem_keys_of_lookup_cm_isSome (by simp [hp]))) (by simp)
  | cons q h' ih =>
    intro cms lost st p d hsorted hnodup hkeys1 hkeys2 hknodup hp hlive hmin
    have hqkeys : q ∈ cms.map Prod.fst := hkeys1 q (List.mem_cons_self _ _)
    obtain ⟨dq, hq⟩ := Option.isSome_iff_exists.mp (lookup_cm_isSome_of_mem_keys hqkeys)
    have hqnotmem : q ∉ h' := (List.nodup_cons.mp hnodup).1
    by_cases hlv : ∃ w ∈ dq, st w = WStatus.pending
    · -- the popped bucket has a pending waiter, so it is the minimal live one
      have hpq : p = q := by
        have h1 : p ≤ q := hmin (q, dq) (lookup_cm_mem hq) hlv
        have hpmem : p ∈ q :: h' :=
          hkeys2 p (mem_keys_of_lookup_cm_isSome (by simp [hp]))
        rcases List.mem_cons.mp hpmem with hh | hpm
        · exact hh
        · exact le_antisymm h1 (List.rel_of_sorted_cons hsorted p hpm)
      rw [hpq] at hp hmin ⊢
      rw [hp] at hq
      have hd := Option.some_injective _ hq
      subst hd
      have hne : d.isEmpty = false := by
        rcases hlive with ⟨w0, hw0, _⟩
        cases d with
        | nil => cases hw0
        | cons a l => rfl
      obtain ⟨w, rest, hdrain⟩ := drain_bucket_finds hlive lost
      rcases hdb : drain_bucket st d lost with ⟨o1, lost2⟩
      rw [hdb] at hdrain
      dsimp at hdrain
      subst hdrain
      by_cases hre : rest.isEmpty
      · have hwl : wake_loop (q :: h') cms lost st =
            (h', erase_cm cms q, lost2, update_status st w WStatus.granted) := by
          simp only [wake_loop, hp, hne, hdb, hre, Bool.false_eq_true, if_false, if_true]
        refine ⟨w, rest, rfl, ?_, ?_, ?_⟩
        · rw [hwl]
        · rw [hwl, hre]
          exact lookup_erase_cm_self hknodup
        · rw [hwl, hre]
          simp [hqnotmem]
      · have hwl : wake_loop (q :: h') cms lost st =
            (heap_push h' q, set_cm cms q rest, lost2,
              update_status st w WStatus.granted) := by
          simp only [wake_loop, hp, hne, hdb, hre, Bool.false_eq_true, if_false]
        rw [Bool.not_eq_true] at hre
        refine ⟨w, rest, rfl, ?_, ?_, ?_⟩
        · rw [hwl]
        · rw [hwl, hre]
          simp only [Bool.false_eq_true, if_false]
          exact lookup_set_cm_self rest (by simp [hp])
        · rw [hwl, hre]
          simp [heap_push_mem]
    · -- the popped bucket is dead: it is discarded and the walk continues
      have hqp : q ≠ p := by
        intro hqp
        rw [hqp, hp] at hq
        exact hlv (Option.some_injective _ hq ▸ hlive)
      have hsorted' : h'.Sorted (· ≤ ·) := hsorted.of_cons
      have hnodup' : h'.Nodup := (List.nodup_cons.mp hnodup).2
      have hkeys1' : ∀ r ∈ h', r ∈ (erase_cm cms q).map Prod.fst := by
        intro r hr
        have hrq : r ≠ q := fun hh => hqnotmem (hh ▸ hr)
        refine mem_keys_of_lookup_cm_isSome ?_
        rw [lookup_erase_cm_of_ne hrq]
        exact lookup_cm_isSome_of_mem_keys (hkeys1 r (List.mem_cons_of_mem _ hr))
      have hkeys2' : ∀ r ∈ (erase_cm cms q).map Prod.fst, r ∈ h' := by
        intro r hr
        have hrq : r ≠ q := by
          intro hh
          rw [hh] at hr
          have := lookup_cm_isSome_of_mem_keys hr
          rw [lookup_erase_cm_self hknodup] at this
          cases this
        have hrcms : r ∈ cms.map Prod.fst :=
          List.Sublist.mem hr (List.Sublist.map _ (erase_cm_sublist cms q))
        rcases List.mem_cons.mp (hkeys2 r hrcms) with hh | hh
        · exact absurd hh hrq
        · exact hh
      have hknodup' : ((erase_cm cms q).map Prod.fst).Nodup :=
        List.Nodup.sublist (List.Sublist.map _ (erase_cm_sublist cms q)) hknodup
      have hp' : lookup_cm (erase_cm cms q) p = some d := by
        rw [lookup_erase_cm_of_ne (Ne.symm hqp)]
        exact hp
      have hmin' : ∀ e ∈ erase_cm cms q, (∃ w ∈ e.2, st w = WStatus.pending) → p ≤ e.1 :=
        fun e he hle => hmin e (List.Sublist.mem he (erase_cm_sublist cms q)) hle
      by_cases hdqe : dq.isEmpty
      · have hwl : wake_loop (q :: h') cms lost st =
            wake_loop h' (erase_cm cms q) lost st := by
          simp only [wake_loop, hq, hdqe, if_true]
        rw [hwl]
        exact ih (erase_cm cms q) lost st p d hsorted' hnodup' hkeys1' hkeys2'
          hknodup' hp' hlive hmin'
      · have hdqnone : (drain_bucket st dq lost).1 = none := by
          push_neg at hlv
          exact drain_bucket_none hlv lost
        rcases hdb : drain_bucket st dq lost with ⟨o1, lost2⟩
        rw [hdb] at hdqnone
        dsimp at hdqnone
        subst hdqnone
        have hwl : wake_loop (q :: h') cms lost st =
            wake_loop h' (erase_cm cms q) lost2 st := by
          simp only [wake_loop, hq, hdqe, hdb, Bool.false_eq_true, if_false]
        rw [hwl]
        obtain ⟨w, rest, hdr, hrest⟩ := ih (erase_cm cms q) lost2 st p d hsorted'
          hnodup' hkeys1' hkeys2' hknodup' hp' hlive hmin'
        exact ⟨w, rest, (drain_bucket_fst_indep st d lost lost2).trans hdr, hrest⟩

/-! ### C1 and C8: release and cancellation behaviour -/

/-- C1: on every well-formed semaphore state in which some bucket holds a
live (pending) waiter, `release()` wakes exactly one waiter — the oldest
not-yet-done waiter `w` of the bucket `p` whose priority is minimal among
buckets holding live waiters (`drain_bucket` walks that bucket's deque from
its front, so `w` is its first-enqueued live waiter): the new status map is
exactly the old one with `w` granted.  Afterwards the bucket is in the dict
with exactly its remaining waiters, and back on the heap, iff waiters remain;
otherwise it is discarded.  `release` also increments the permit count. -/
theorem C1_release_wakes_oldest_of_min_priority_live_bucket (s : SemState)
    (p : Int) (d : List Nat)
    (hwf : sem_wf s)
    (hp : lookup_cm s.cms p = some d)
    (hlive : ∃ w ∈ d, s.status w = WStatus.pending)
    (hmin : ∀ e ∈ s.cms, (∃ w ∈ e.2, s.status w = WStatus.pending) → p ≤ e.1) :
    ∃ w rest,
      (drain_bucket s.status d s.lost).1 = some (w, rest) ∧
      (sem_release s).status = update_status s.status w WStatus.granted ∧
      lookup_cm (sem_release s).cms p = (if rest.isEmpty then none else some rest) ∧
      ((p ∈ (sem_release s).heap) ↔ rest.isEmpty = false) ∧
      (sem_release s).value = s.value + 1 := by
  obtain ⟨hs, hn, hk1, hk2, hkn⟩ := hwf
  obtain ⟨w, rest, h1, h2, h3, h4⟩ :=
    wake_loop_spec s.heap s.cms s.lost s.status p d hs hn hk1 hk2 hkn hp hlive hmin
  exact ⟨w, rest, h1, h2, h3, h4, rfl⟩

theorem C1_release_wakes_oldest_of_min_priority_live_bucket_witness :
    ∃ w rest,
      (drain_bucket (SemState.mk 0 [1, 5] [(5, []), (1, [0])] [0]
          (fun _ => WStatus.pending) 1).status [0]
        (SemState.mk 0 [1, 5] [(5, []), (1, [0])] [0]
          (fun _ => WStatus.pending) 1).lost).1 = some (w, rest) ∧
      (sem_release (SemState.mk 0 [1, 5] [(5, []), (1, [0])] [0]
          (fun _ => WStatus.pending) 1)).status =
        update_status (SemState.mk 0 [1, 5] [(5, []), (1, [0])] [0]
          (fun _ => WStatus.pending) 1).status w WStatus.granted ∧
      lookup_cm (sem_release (SemState.mk 0 [1, 5] [(5, []), (1, [0])] [0]
          (fun _ => WStatus.pending) 1)).cms 1 =
        (if rest.isEmpty then none else some rest) ∧
      (((1 : Int) ∈ (sem_release (SemState.mk 0 [1, 5] [(5, []), (1, [0])] [0]
          (fun _ => WStatus.pending) 1)).heap) ↔ rest.isEmpty = false) ∧
      (sem_release (SemState.mk 0 [1, 5] [(5, []), (1, [0])] [0]
          (fun _ => WStatus.pending) 1)).value =
        (SemState.mk 0 [1, 5] [(5, []), (1, [0])] [0]
          (fun _ => WStatus.pending) 1).value + 1 :=
  C1_release_wakes_oldest_of_min_priority_live_bucket
    (SemState.mk 0 [1, 5] [(5, []), (1, [0])] [0] (fun _ => WStatus.pending) 1)
    1 [0]
    ⟨by decide, by decide, by decide, by decide, by decide⟩
    rfl (by decide) (by decide)

/-- C8: cancelling a suspended waiter `wc` never decrements the permit
count: if `wc` is still pending, the cancellation handler only marks it
cancelled — permits, heap, dict and every other waiter are untouched and
nothing is woken.  If instead the cancellation races with a release that
already granted the permit to `wc` (its future resolved) while a permit is
free, the handler runs `_wake_up_next`, forwarding the permit: the oldest
live waiter `w` of the minimal-priority live bucket is granted and the
permit count is not consumed by the cancelled party. -/
theorem C8_cancel_preserves_permits_and_forwards (s : SemState)
    (wc : Nat) (p : Int) (d : List Nat)
    (hwf : sem_wf s)
    (hp : lookup_cm s.cms p = some d)
    (hlive : ∃ w ∈ d, s.status w = WStatus.pending)
    (hmin : ∀ e ∈ s.cms, (∃ w ∈ e.2, s.status w = WStatus.pending) → p ≤ e.1) :
    (s.status wc = WStatus.pending →
      cm_acquire_cancel s wc =
        { s with status := update_status s.status wc WStatus.cancelled }) ∧
    (s.status wc = WStatus.granted → 0 < s.value →
      ∃ w rest,
        (drain_bucket s.status d s.lost).1 = some (w, rest) ∧
        (cm_acquire_cancel s wc).status = update_status s.status w WStatus.granted ∧
        lookup_cm (cm_acquire_cancel s wc).cms p =
          (if rest.isEmpty then none else some rest) ∧
        ((p ∈ (cm_acquire_cancel s wc).heap) ↔ rest.isEmpty = false) ∧
        (cm_acquire_cancel s wc).value = s.value) := by
  obtain ⟨hs, hn, hk1, hk2, hkn⟩ := hwf
  constructor
  · intro hpend
    have hcond : ¬ (0 < s.value ∧
        update_status s.status wc WStatus.cancelled wc ≠ WStatus.cancelled) := fun hc =>
      hc.2 (by simp [update_status])
    simp only [cm_acquire_cancel]
    rw [if_pos hpend, if_neg hcond]
  · intro hgr hval
    have hng : ¬ s.status wc = WStatus.pending := by rw [hgr]; intro hh; cases hh
    have hnc : s.status wc ≠ WStatus.cancelled := by rw [hgr]; intro hh; cases hh
    have hred : cm_acquire_cancel s wc = wake_up_next s := by
      simp only [cm_acquire_cancel, if_neg hng]
      rw [if_pos ⟨hval, hnc⟩]
    obtain ⟨w, rest, h1, h2, h3, h4⟩ :=
      wake_loop_spec s.heap s.cms s.lost s.status p d hs hn hk1 hk2 hkn hp hlive hmin
    exact ⟨w, rest, h1, by rw [hred]; exact h2, by rw [hred]; exact h3,
      by rw [hred]; exact h4, by rw [hred]; rfl⟩

theorem C8_cancel_preserves_permits_and_forwards_witness :
    ((SemState.mk 1 [2, 5] [(5, []), (2, [1])] [1]
        (fun x => if x = 0 then WStatus.granted else WStatus.pending) 2).status 0 =
          WStatus.pending →
      cm_acquire_cancel (SemState.mk 1 [2, 5] [(5, []), (2, [1])] [1]
        (fun x => if x = 0 then WStatus.granted else WStatus.pending) 2) 0 =
        { SemState.mk 1 [2, 5] [(5, []), (2, [1])] [1]
            (fun x => if x = 0 then WStatus.granted else WStatus.pending) 2 with
          status := update_status
            (SemState.mk 1 [2, 5] [(5, []), (2, [1])] [1]
              (fun x => if x = 0 then WStatus.granted else WStatus.pending) 2).status
            0 WStatus.cancelled }) ∧
    ((SemState.mk 1 [2, 5] [(5, []), (2, [1])] [1]
        (fun x => if x = 0 then WStatus.granted else WStatus.pending) 2).status 0 =
          WStatus.granted →
      0 < (SemState.mk 1 [2, 5] [(5, []), (2, [1])] [1]
        (fun x => if x = 0 then WStatus.granted else WStatus.pending) 2).value →
      ∃ w rest,
        (drain_bucket (SemState.mk 1 [2, 5] [(5, []), (2, [1])] [1]
            (fun x => if x = 0 then WStatus.granted else WStatus.pending) 2).status [1]
          (SemState.mk 1 [2, 5] [(5, []), (2, [1])] [1]
            (fun x => if x = 0 then WStatus.granted else WStatus.pending) 2).lost).1 =
          some (w, rest) ∧
        (cm_acquire_cancel (SemState.mk 1 [2, 5] [(5, []), (2, [1])] [1]
            (fun x => if x = 0 then WStatus.granted else WStatus.pending) 2) 0).status =
          update_status (SemState.mk 1 [2, 5] [(5, []), (2, [1])] [1]
            (fun x => if x = 0 then WStatus.granted else WStatus.pending) 2).status
            w WStatus.granted ∧
        lookup_cm (cm_acquire_cancel (SemState.mk 1 [2, 5] [(5, []), (2, [1])] [1]
            (fun x => if x = 0 then WStatus.granted else WStatus.pending) 2) 0).cms 2 =
          (if rest.isEmpty then none else some rest) ∧
        (((2 : Int) ∈ (cm_acquire_cancel (SemState.mk 1 [2, 5] [(5, []), (2, [1])] [1]
            (fun x => if x = 0 then WStatus.granted else WStatus.pending) 2) 0).heap) ↔
          rest.isEmpty = false) ∧
        (cm_acquire_cancel (SemState.mk 1 [2, 5] [(5, []), (2, [1])] [1]
            (fun x => if x = 0 then WStatus.granted else WStatus.pending) 2) 0).value =
          (SemState.mk 1 [2, 5] [(5, []), (2, [1])] [1]
            (fun x => if x = 0 then WStatus.granted else WStatus.pending) 2).value) :=
  C8_cancel_preserves_permits_and_forwards
    (SemState.mk 1 [2, 5] [(5, []), (2, [1])] [1]
      (fun x => if x = 0 then WStatus.granted else WStatus.pending) 2)
    0 2 [1]
    ⟨by decide, by decide, by decide, by decide, by decide⟩
    rfl (by decide) (by decide)

/-! ### Well-formedness is preserved by every operation (C6) -/

theorem wake_loop_wf (heap : List Int) :
    ∀ (cms : List (Int × List Nat)) (lost : List Nat) (st : Nat → WStatus),
    heap.Sorted (· ≤ ·) →
    heap.Nodup →
    (∀ q ∈ heap, q ∈ cms.map Prod.fst) →
    (∀ q ∈ cms.map Prod.fst, q ∈ heap) →
    (cms.map Prod.fst).Nodup →
    ((wake_loop heap cms lost st).1.Sorted (· ≤ ·) ∧
     (wake_loop heap cms lost st).1.Nodup ∧
     (∀ q ∈ (wake_loop heap cms lost st).1,
        q ∈ (wake_loop heap cms lost st).2.1.map Prod.fst) ∧
     (∀ q ∈ (wake_loop heap cms lost st).2.1.map Prod.fst,
        q ∈ (wake_loop heap cms lost st).1) ∧
     ((wake_loop heap cms lost st).2.1.map Prod.fst).Nodup) := by
  induction heap with
  | nil =>
    intro cms lost st _ _ _ hk2 hkn
    have hwl1 : (wake_loop [] cms lost st).1 = [] := rfl
    have hwl2 : (wake_loop [] cms lost st).2.1 = cms := rfl
    rw [hwl1, hwl2]
    exact ⟨List.sorted_nil, List.nodup_nil, by simp, hk2, hkn⟩
  | cons q h' ih =>
    intro cms lost st hs hn hk1 hk2 hkn
    have hqnotmem : q ∉ h' := (List.nodup_cons.mp hn).1
    have hsorted' : h'.Sorted (· ≤ ·) := hs.of_cons
    have hnodup' : h'.Nodup := (List.nodup_cons.mp hn).2
    cases hq : lookup_cm cms q with
    | none =>
      have hwl : wake_loop (q :: h') cms lost st = wake_loop h' cms lost st := by
        simp only [wake_loop, hq]
      rw [hwl]
      refine ih cms lost st hsorted' hnodup'
        (fun r hr => hk1 r (List.mem_cons_of_mem _ hr)) ?_ hkn
      intro r hr
      rcases List.mem_cons.mp (hk2 r hr) with rfl | hh
      · have := lookup_cm_isSome_of_mem_keys hr
        rw [hq] at this
        cases this
      · exact hh
    | some d =>
      have hek1 : ∀ r ∈ h', r ∈ (erase_cm cms q).map Prod.fst := by
        intro r hr
        have hrq : r ≠ q := fun hh => hqnotmem (hh ▸ hr)
        refine mem_keys_of_lookup_cm_isSome ?_
        rw [lookup_erase_cm_of_ne hrq]
        exact lookup_cm_isSome_of_mem_keys (hk1 r (List.mem_cons_of_mem _ hr))
      have hek2 : ∀ r ∈ (erase_cm cms q).map Prod.fst, r ∈ h' := by
        intro r hr
        have hrq : r ≠ q := by
          intro hh
          rw [hh] at hr
          have := lookup_cm_isSome_of_mem_keys hr
          rw [lookup_erase_cm_self hkn] at this
          cases this
        have hrcms : r ∈ cms.map Prod.fst :=
          List.Sublist.mem hr (List.Sublist.map _ (erase_cm_sublist cms q))
        rcases List.mem_cons.mp (hk2 r hrcms) with hh | hh
        · exact absurd hh hrq
        · exact hh
      have hekn : ((erase_cm cms q).map Prod.fst).Nodup :=
        List.Nodup.sublist (List.Sublist.map _ (erase_cm_sublist cms q)) hkn
      by_cases hde : d.isEmpty
      · have hwl : wake_loop (q :: h') cms lost st =
            wake_loop h' (erase_cm cms q) lost st := by
          simp only [wake_loop, hq, hde, if_true]
        rw [hwl]
        exact ih (erase_cm cms q) lost st hsorted' hnodup' hek1 hek2 hekn
      · rcases hdb : drain_bucket st d lost with ⟨o1, lost2⟩
        cases o1 with
        | none =>
          have hwl : wake_loop (q :: h') cms lost st =
              wake_loop h' (erase_cm cms q) lost2 st := by
            simp only [wake_loop, hq, hde, hdb, Bool.false_eq_true, if_false]
          rw [hwl]
          exact ih (erase_cm cms q) lost2 st hsorted' hnodup' hek1 hek2 hekn
        | some pr =>
          obtain ⟨w, rest⟩ := pr
          by_cases hre : rest.isEmpty
          · have hwl : wake_loop (q :: h') cms lost st =
                (h', erase_cm cms q, lost2, update_status st w WStatus.granted) := by
              simp only [wake_loop, hq, hde, hdb, hre, Bool.false_eq_true, if_false,
                if_true]
            rw [hwl]
            exact ⟨hsorted', hnodup', hek1, hek2, hekn⟩
          · have hwl : wake_loop (q :: h') cms lost st =
                (heap_push h' q, set_cm cms q rest, lost2,
                  update_status st w WStatus.granted) := by
              simp only [wake_loop, hq, hde, hdb, hre, Bool.false_eq_true, if_false]
            rw [hwl]
            have hqkeys : q ∈ cms.map Prod.fst :=
              mem_keys_of_lookup_cm_isSome (by simp [hq])
            refine ⟨heap_push_sorted hsorted', heap_push_nodup hnodup' hqnotmem,
              ?_, ?_, ?_⟩
            · intro r hr
              rw [set_cm_keys]
              rcases heap_push_mem.mp hr with rfl | hh
              · exact hqkeys
              · exact hk1 r (List.mem_cons_of_mem _ hh)
            · intro r hr
              rw [set_cm_keys] at hr
              rcases List.mem_cons.mp (hk2 r hr) with rfl | hh
              · exact heap_push_mem.mpr (Or.inl rfl)
              · exact heap_push_mem.mpr (Or.inr hh)
            · rw [set_cm_keys]
              exact hkn

theorem wake_up_next_wf (s : SemState) (h : sem_wf s) : sem_wf (wake_up_next s) := by
  obtain ⟨hs, hn, hk1, hk2, hkn⟩ := h
  obtain ⟨a, b, c, d2, e⟩ := wake_loop_wf s.heap s.cms s.lost s.status hs hn hk1 hk2 hkn
  exact ⟨a, b, c, d2, e⟩

theorem sem_getitem_wf (s : SemState) (priority : Option Int) (h : sem_wf s) :
    sem_wf (sem_getitem s priority).2 := by
  obtain ⟨hs, hn, hk1, hk2, hkn⟩ := h
  set p := prio_or_top priority with hpdef
  by_cases hm : (lookup_cm s.cms p).isSome
  · have : (sem_getitem s priority).2 = s := by
      simp only [sem_getitem, ← hpdef, hm, if_true]
    rw [this]
    exact ⟨hs, hn, hk1, hk2, hkn⟩
  · have hwl : (sem_getitem s priority).2 =
        { s with
          heap := heap_push s.heap p
          cms := s.cms ++ [(p, [])] } := by
      simp only [sem_getitem, ← hpdef, hm, Bool.false_eq_true, if_false]
    rw [hwl]
    have hpkeys : p ∉ cm_keys s := fun hmem =>
      hm (lookup_cm_isSome_of_mem_keys hmem)
    have hpheap : p ∉ s.heap := fun hmem => hpkeys (hk1 p hmem)
    have hknew : cm_keys
        { s with
          heap := heap_push s.heap p
          cms := s.cms ++ [(p, [])] } = cm_keys s ++ [p] := by
      simp [cm_keys]
    refine ⟨heap_push_sorted hs, heap_push_nodup hn hpheap, ?_, ?_, ?_⟩
    · intro r hr
      rw [hknew]
      rcases heap_push_mem.mp hr with rfl | hh
      · exact List.mem_append_right _ (List.mem_singleton_self _)
      · exact List.mem_append_left _ (hk1 r hh)
    · intro r hr
      rw [hknew] at hr
      rcases List.mem_append.mp hr with hh | hh
      · exact heap_push_mem.mpr (Or.inr (hk2 r hh))
      · exact heap_push_mem.mpr (Or.inl (List.mem_singleton.mp hh))
    · rw [hknew]
      refine List.Nodup.append hkn (List.nodup_singleton _) ?_
      intro x hx1 hx2
      rw [List.mem_singleton.mp hx2] at hx1
      exact hpkeys hx1

theorem cm_acquire_step_wf (s : SemState) (p : Int) (h : sem_wf s) :
    sem_wf (cm_acquire_step s p).2 := by
  obtain ⟨hs, hn, hk1, hk2, hkn⟩ := h
  by_cases hv : s.value ≤ 0
  · have hwl : (cm_acquire_step s p).2 =
        { s with
          cms := bucket_append s.cms p s.next_id
          lost := s.lost ++ [s.next_id]
          next_id := s.next_id + 1 } := by
      simp only [cm_acquire_step, hv, if_true]
    rw [hwl]
    have hknew : cm_keys
        { s with
          cms := bucket_append s.cms p s.next_id
          lost := s.lost ++ [s.next_id]
          next_id := s.next_id + 1 } = cm_keys s := by
      simp [cm_keys, bucket_append_keys]
    rw [sem_wf, hknew]
    exact ⟨hs, hn, hk1, hk2, hkn⟩
  · have hwl : (cm_acquire_step s p).2 = { s with value := s.value - 1 } := by
      simp only [cm_acquire_step, hv, Bool.false_eq_true, if_false]
    rw [hwl]
    exact ⟨hs, hn, hk1, hk2, hkn⟩

theorem cm_acquire_cancel_wf (s : SemState) (w : Nat) (h : sem_wf s) :
    sem_wf (cm_acquire_cancel s w) := by
  have hs1 : ∀ st1 : Nat → WStatus, sem_wf { s with status := st1 } := by
    intro st1
    obtain ⟨hs, hn, hk1, hk2, hkn⟩ := h
    exact ⟨hs, hn, hk1, hk2, hkn⟩
  simp only [cm_acquire_cancel]
  split
  · split
    · exact wake_up_next_wf _ (hs1 _)
    · exact hs1 _
  · split
    · exact wake_up_next_wf _ (hs1 _)
    · exact hs1 _

theorem sem_step_wf (s : SemState) (op : SemOp) (h : sem_wf s) :
    sem_wf (sem_step s op) := by
  cases op with
  | getitem priority => exact sem_getitem_wf s priority h
  | acquire p =>
    exact cm_acquire_step_wf _ _ (sem_getitem_wf s (some p) h)
  | resume p => exact cm_acquire_step_wf s p h
  | cancel w => exact cm_acquire_cancel_wf s w h
  | release =>
    exact wake_up_next_wf _ (by
      obtain ⟨hs, hn, hk1, hk2, hkn⟩ := h
      exact ⟨hs, hn, hk1, hk2, hkn⟩)

theorem sem_wf_exec (capacity : Int) (ops : List SemOp) :
    sem_wf (exec_sem capacity ops) := by
  have key : ∀ (ops : List SemOp) (s : SemState), sem_wf s →
      sem_wf (ops.foldl sem_step s) := by
    intro ops
    induction ops with
    | nil => exact fun s h => h
    | cons op rest ih => exact fun s h => ih (sem_step s op) (sem_step_wf s op h)
  refine key ops (init_sem capacity) ?_
  exact ⟨List.sorted_nil, List.nodup_nil, by simp [init_sem], by simp [init_sem, cm_keys],
    by simp [init_sem, cm_keys]⟩

/-- C6 (amended): after any sequence of `__getitem__`, `acquire` (first
step or resumption), cancellation, and `release` operations, a bucket is
present in the buckets map exactly when it is present in the bucket heap
(and the heap is a sorted duplicate-free view of the map's keys).  Buckets
with zero waiters may be present — `__getitem__` creates a bucket before any
waiter enqueues, and an immediately-successful `acquire` leaves it empty —
and such buckets are discarded lazily, when a `_wake_up_next` pass pops
them, rather than the moment they become waiter-free. -/
theorem C6_bucket_in_map_iff_in_heap (capacity : Int) (ops : List SemOp) :
    (∀ p ∈ (exec_sem capacity ops).heap, p ∈ cm_keys (exec_sem capacity ops)) ∧
    (∀ p ∈ cm_keys (exec_sem capacity ops), p ∈ (exec_sem capacity ops).heap) ∧
    (exec_sem capacity ops).heap.Sorted (· ≤ ·) ∧
    (exec_sem capacity ops).heap.Nodup := by
  obtain ⟨hs, hn, hk1, hk2, _⟩ := sem_wf_exec capacity ops
  exact ⟨hk1, hk2, hs, hn⟩

end ASync
